import Mathlib

/-!
Verification of the transcriber repository's documented core: the
speaker-segment builder (`src/transcription/google_transcriber.py`,
`_group_words_into_segments`) and the output formatters
(`src/output/formatter.py`: `format_plain_text`, `format_markdown`,
`_seconds_to_timestamp`, `format_srt`).

Python floats are modelled as rationals (`ℚ`), Python dictionaries with
optional keys as structures with `Option` fields, and Python's string
operations (`str.strip`, `str.join`, decimal formatting with zero padding)
as explicit functions on `String` / `List Char`.
-/

/-! ### Python primitives -/

/-- The ASCII whitespace characters stripped by Python's `str.strip()`. -/
def isPySpace (c : Char) : Bool :=
  c == ' ' || c == '\t' || c == '\n' || c == '\x0b' || c == '\x0c' || c == '\r'

/-- `str.strip()` on the character list: drop whitespace from both ends. -/
def pyStripList (l : List Char) : List Char :=
  (l.dropWhile isPySpace).rdropWhile isPySpace

/-- Python `s.strip()`. -/
def pyStrip (s : String) : String := String.mk (pyStripList s.data)

/-- Python `sep.join(parts)`. -/
def pyJoin (sep : String) : List String → String
  | [] => ""
  | [s] => s
  | s :: t :: rest => s ++ sep ++ pyJoin sep (t :: rest)

/-- Decimal digits of `n`, most significant first; `fuel` bounds recursion
depth (any `fuel >` number of digits gives the exact digits). -/
def decDigitsGo : Nat → Nat → List Char
  | 0, _ => []
  | fuel + 1, n =>
      if n < 10 then [Nat.digitChar n]
      else decDigitsGo fuel (n / 10) ++ [Nat.digitChar (n % 10)]

/-- Python `str(n)` for a natural number. -/
def decStr (n : Nat) : String := String.mk (decDigitsGo (n + 1) n)

/-- Python `str(i)` for an integer. -/
def intRepr (i : Int) : String :=
  if i < 0 then "-" ++ decStr i.natAbs else decStr i.toNat

/-- Left-pad a string with `'0'` up to width `w`. -/
def padZeros (w : Nat) (s : String) : String :=
  String.mk (List.replicate (w - s.length) '0') ++ s

/-- Python `f"{n:0wd}"` for a natural number. -/
def natFmt (w : Nat) (n : Nat) : String := padZeros w (decStr n)

/-- Python `f"{i:0wd}"` for an integer (the sign counts toward the width
and the zeros go after the sign). -/
def intFmt (w : Nat) (i : Int) : String :=
  if i < 0 then "-" ++ padZeros (w - 1) (decStr i.natAbs)
  else padZeros w (decStr i.toNat)

/-- Python float `x // y` (floor division). -/
def pyFloorDiv (x y : ℚ) : ℚ := ((x / y).floor : ℚ)

/-- Python float `x % y` (`x - y * (x // y)`). -/
def pyMod (x y : ℚ) : ℚ := x - y * ((x / y).floor : ℚ)

/-- Python `int(x)`: truncation toward zero. -/
def pyInt (x : ℚ) : Int := if 0 ≤ x then x.floor else -((-x).floor)

/-! ### `src/output/formatter.py` -/

/-- `format_plain_text`: `text.strip() + "\n"`. -/
def format_plain_text (text : String) : String := pyStrip text ++ "\n"

/-- `format_markdown`: `text.strip() + "\n"`. -/
def format_markdown (text : String) : String := pyStrip text ++ "\n"

/-- `_seconds_to_timestamp`: render seconds as `HH:MM:SS,mmm`. -/
def _seconds_to_timestamp (seconds : ℚ) : String :=
  let hours : Int := pyInt (pyFloorDiv seconds 3600)
  let minutes : Int := pyInt (pyFloorDiv (pyMod seconds 3600) 60)
  let secs : Int := pyInt (pyMod seconds 60)
  let millis : Int := pyInt ((seconds - (pyInt seconds : ℚ)) * 1000)
  intFmt 2 hours ++ ":" ++ intFmt 2 minutes ++ ":" ++ intFmt 2 secs ++ "," ++ intFmt 3 millis

/-- A Whisper segment dictionary as consumed by `format_srt`: the keys
`start`, `end` and `text` may each be absent (`none`). -/
structure SrtSegment where
  start : Option ℚ
  «end» : Option ℚ
  text : Option String
deriving DecidableEq

/-- The loop body of `format_srt`: one SRT block
`f"{index}\n{start_ts} --> {end_ts}\n{text}\n"`, where missing keys
default via `segment.get("start", 0)`, `segment.get("end", 0)`,
`segment.get("text", "")`. -/
def srtBlock (index : Nat) (segment : SrtSegment) : String :=
  let start_ts := _seconds_to_timestamp (segment.start.getD 0)
  let end_ts := _seconds_to_timestamp (segment.«end».getD 0)
  let text := pyStrip (segment.text.getD "")
  decStr index ++ "\n" ++ start_ts ++ " --> " ++ end_ts ++ "\n" ++ text ++ "\n"

/-- `format_srt`: build one block per segment with 1-based indices and
join the blocks with `"\n"`. -/
def format_srt (segments : List SrtSegment) : String :=
  pyJoin "\n" (segments.enum.map fun p => srtBlock (p.1 + 1) p.2)

/-- The `index`/`timestamps`/`text` part of one SRT block, without the
block's trailing newline (used to state how blocks are separated). -/
def srtBody (index : Nat) (segment : SrtSegment) : String :=
  decStr index ++ "\n" ++ _seconds_to_timestamp (segment.start.getD 0) ++ " --> " ++
    _seconds_to_timestamp (segment.«end».getD 0) ++ "\n" ++ pyStrip (segment.text.getD "")

/-! ### `src/transcription/google_transcriber.py` -/

/-- A protobuf `Duration` (`seconds` + `nanos`). -/
structure Duration where
  seconds : Int
  nanos : Int
deriving DecidableEq

/-- A `speech.WordInfo`: one recognized word with speaker tag and timing.
`start_time` / `end_time` may be absent (`none`). -/
structure WordInfo where
  word : String
  speaker_tag : Int
  start_time : Option Duration
  end_time : Option Duration
deriving DecidableEq

/-- `ts_to_sec`: `ts.seconds + ts.nanos / 1e9 if ts is not None else 0.0`. -/
def ts_to_sec (ts : Option Duration) : ℚ :=
  match ts with
  | some t => (t.seconds : ℚ) + (t.nanos : ℚ) / 1000000000
  | none => 0

/-- One output segment dictionary of `_group_words_into_segments`. -/
structure Segment where
  speaker : String
  start : ℚ
  «end» : ℚ
  text : String
deriving DecidableEq

/-- Python `a or b` for `a : Optional[float]`: `a` unless it is falsy
(`None` or `0.0`). -/
def pyOrQ (a : Option ℚ) (b : ℚ) : ℚ :=
  match a with
  | none => b
  | some x => if x = 0 then b else x

/-- Python `str(x)` for `x : Optional[int]` (as interpolated by
`f"SPEAKER_{cur_speaker}"`). -/
def optIntRepr (a : Option Int) : String :=
  match a with
  | some i => intRepr i
  | none => "None"

/-- The loop state of `_group_words_into_segments`: emitted segments plus
the currently open segment (`cur_speaker`, `cur_words`, `seg_start`,
`seg_end`). -/
structure GState where
  segments : List Segment
  cur_speaker : Option Int
  cur_words : List String
  seg_start : Option ℚ
  seg_end : Option ℚ

/-- The segment flushed from the open state:
`{"speaker": f"SPEAKER_{cur_speaker}", "start": seg_start or 0.0,
"end": seg_end or seg_start or 0.0, "text": " ".join(cur_words).strip()}`. -/
def flushSeg (st : GState) : Segment :=
  { speaker := "SPEAKER_" ++ optIntRepr st.cur_speaker
    start := pyOrQ st.seg_start 0
    «end» := pyOrQ st.seg_end (pyOrQ st.seg_start 0)
    text := pyStrip (pyJoin " " st.cur_words) }

/-- The body of the `for w in words` loop of `_group_words_into_segments`. -/
def gStep (st : GState) (w : WordInfo) : GState :=
  let spk := w.speaker_tag
  let start := ts_to_sec w.start_time
  let «end» := ts_to_sec w.end_time
  match st.cur_speaker with
  | none =>
      { st with cur_speaker := some spk, cur_words := [w.word],
                seg_start := some start, seg_end := some «end» }
  | some cs =>
      if spk = cs then
        { st with cur_words := st.cur_words ++ [w.word], seg_end := some «end» }
      else
        { segments := st.segments ++ [flushSeg st]
          cur_speaker := some spk, cur_words := [w.word]
          seg_start := some start, seg_end := some «end» }

/-- The trailing `if cur_words:` flush after the loop of
`_group_words_into_segments`. -/
def finishG (st : GState) : List Segment :=
  if st.cur_words ≠ [] then st.segments ++ [flushSeg st] else st.segments

/-- `_group_words_into_segments`: roll consecutive words with the same
`speaker_tag` into segments, flushing the final open segment if any. -/
def _group_words_into_segments (words : List WordInfo) : List Segment :=
  if words = [] then []
  else finishG (words.foldl gStep ⟨[], none, [], none, none⟩)

/-! ### Spec-side decomposition into maximal same-speaker runs -/

/-- Split a word list into maximal runs of consecutive words sharing one
`speaker_tag` (the spec's notion of the words that make one `Segment`). -/
def speakerRuns : List WordInfo → List (List WordInfo)
  | [] => []
  | [w] => [[w]]
  | w :: w' :: ws =>
    if w.speaker_tag = w'.speaker_tag then
      match speakerRuns (w' :: ws) with
      | [] => [[w]]
      | run :: rest => (w :: run) :: rest
    else [w] :: speakerRuns (w' :: ws)

/-- The segment a nonempty same-speaker run is rolled into: speaker label
from its (common) speaker tag, start of its first word, end of its last
word (falling back to the start when that end is `0.0`, after Python's
truthiness), and the space-joined, stripped word texts. -/
def mkSeg : List WordInfo → Segment
  | [] => ⟨"SPEAKER_None", 0, 0, ""⟩
  | w :: ws =>
    let s := ts_to_sec w.start_time
    let e := ts_to_sec (((w :: ws).getLast (by simp)).end_time)
    { speaker := "SPEAKER_" ++ intRepr w.speaker_tag
      start := s
      «end» := if e = 0 then s else e
      text := pyStrip (pyJoin " " ((w :: ws).map WordInfo.word)) }

/-- Replace a word's missing timestamps by the zero duration (what the
spec says the builder's fallback amounts to). -/
def fillMissingTimes (w : WordInfo) : WordInfo :=
  ⟨w.word, w.speaker_tag, some (w.start_time.getD ⟨0, 0⟩), some (w.end_time.getD ⟨0, 0⟩)⟩

/-- The spec's example word `("Hi", speaker 0, 0.0, 0.5)`. -/
def exHi : WordInfo := ⟨"Hi", 0, some ⟨0, 0⟩, some ⟨0, 500000000⟩⟩

/-- The spec's example word `("there", speaker 0, 0.5, 1.0)`. -/
def exThere : WordInfo := ⟨"there", 0, some ⟨0, 500000000⟩, some ⟨1, 0⟩⟩

/-- The spec's example word `("Bye", speaker 1, 1.0, 1.5)`. -/
def exBye : WordInfo := ⟨"Bye", 1, some ⟨1, 0⟩, some ⟨1, 500000000⟩⟩

/-! ### Bridging the computable `Rat` operations to `Int.floor` / `Int.ceil` -/

theorem ratFloor_eq_floor (q : ℚ) : q.floor = ⌊q⌋ := by
  rw [Rat.floor_def, Rat.floor_def']

theorem pyFloorDiv_eq (x y : ℚ) : pyFloorDiv x y = (⌊x / y⌋ : ℚ) := by
  rw [pyFloorDiv, ratFloor_eq_floor]

theorem pyMod_eq (x y : ℚ) : pyMod x y = x - y * (⌊x / y⌋ : ℚ) := by
  rw [pyMod, ratFloor_eq_floor]

theorem pyInt_eq (x : ℚ) : pyInt x = if 0 ≤ x then ⌊x⌋ else ⌈x⌉ := by
  rw [pyInt, ratFloor_eq_floor, ratFloor_eq_floor, Int.floor_neg, neg_neg]

theorem pyInt_of_nonneg {x : ℚ} (h : 0 ≤ x) : pyInt x = ⌊x⌋ := by
  rw [pyInt_eq, if_pos h]

theorem pyInt_intCast (n : Int) : pyInt (n : ℚ) = n := by
  rw [pyInt_eq]
  rcases le_or_lt 0 (n : ℚ) with h | h
  · rw [if_pos h, Int.floor_intCast]
  · rw [if_neg (not_le.mpr h), Int.ceil_intCast]

theorem pyMod_nonneg {x y : ℚ} (hy : 0 < y) : 0 ≤ pyMod x y := by
  rw [pyMod_eq]
  have h := Int.fract_nonneg (x / y)
  have : pyMod x y = y * Int.fract (x / y) := by
    rw [pyMod_eq, Int.fract, mul_sub, mul_div_cancel₀ _ (ne_of_gt hy)]
  rw [pyMod_eq] at this
  rw [this]
  exact mul_nonneg (le_of_lt hy) h

theorem pyMod_lt {x y : ℚ} (hy : 0 < y) : pyMod x y < y := by
  have h : pyMod x y = y * Int.fract (x / y) := by
    rw [pyMod_eq, Int.fract, mul_sub, mul_div_cancel₀ _ (ne_of_gt hy)]
  rw [h]
  calc y * Int.fract (x / y) < y * 1 := by
        exact mul_lt_mul_of_pos_left (Int.fract_lt_one _) hy
    _ = y := mul_one y

theorem intFmt_of_nonneg {i : Int} (h : 0 ≤ i) (w : Nat) :
    intFmt w i = natFmt w i.toNat := by
  rw [intFmt, if_neg (not_lt.mpr h), natFmt]

/-- On nonnegative input, `_seconds_to_timestamp` renders exactly the
floor-based hour/minute/second/millisecond fields. -/
theorem seconds_to_timestamp_eval (q : ℚ) (hq : 0 ≤ q) :
    _seconds_to_timestamp q =
      natFmt 2 ⌊q / 3600⌋.toNat ++ ":" ++
      natFmt 2 ⌊pyMod q 3600 / 60⌋.toNat ++ ":" ++
      natFmt 2 ⌊pyMod q 60⌋.toNat ++ "," ++
      natFmt 3 ⌊(q - (⌊q⌋ : ℚ)) * 1000⌋.toNat := by
  have hfq : (0 : ℚ) ≤ (⌊q / 3600⌋ : ℚ) := by
    have : (0 : Int) ≤ ⌊q / 3600⌋ := Int.floor_nonneg.mpr (by positivity)
    exact_mod_cast this
  have h3600 : (0 : ℚ) < 3600 := by norm_num
  have h60 : (0 : ℚ) < 60 := by norm_num
  have hm3600 := pyMod_nonneg (x := q) h3600
  have hm60 := pyMod_nonneg (x := q) h60
  have hmin : (0 : ℚ) ≤ pyMod q 3600 / 60 := by positivity
  have hfrac : (0 : ℚ) ≤ (q - (⌊q⌋ : ℚ)) * 1000 := by
    have := Int.fract_nonneg q
    rw [Int.fract] at this
    positivity
  rw [_seconds_to_timestamp]
  rw [pyFloorDiv_eq, pyFloorDiv_eq, pyInt_intCast, pyInt_intCast]
  rw [pyInt_of_nonneg hq, pyInt_of_nonneg hm60, pyInt_of_nonneg hfrac]
  rw [intFmt_of_nonneg (Int.floor_nonneg.mpr (by positivity)) 2]
  rw [intFmt_of_nonneg (Int.floor_nonneg.mpr hmin) 2]
  rw [intFmt_of_nonneg (Int.floor_nonneg.mpr hm60) 2]
  rw [intFmt_of_nonneg (Int.floor_nonneg.mpr hfrac) 3]

/-! ### Decimal rendering lemmas -/

theorem decDigitsGo_length_pos (fuel n : Nat) (h : 0 < fuel) :
    0 < (decDigitsGo fuel n).length := by
  cases fuel with
  | zero => exact absurd h (by simp)
  | succ f =>
    rw [decDigitsGo]
    split
    · simp
    · simp

theorem decStr_length_of_ge_100 {n : Nat} (h : 100 ≤ n) : 3 ≤ (decStr n).length := by
  obtain ⟨m, rfl⟩ : ∃ m, n = m + 100 := ⟨n - 100, by omega⟩
  rw [decStr]
  have h1 : ¬ m + 100 < 10 := by omega
  have h2 : ¬ (m + 100) / 10 < 10 := by omega
  rw [show m + 100 + 1 = (m + 100) + 1 from rfl, decDigitsGo, if_neg h1]
  obtain ⟨k, hk⟩ : ∃ k, m + 100 = k + 1 := ⟨m + 99, by omega⟩
  rw [hk, decDigitsGo, if_neg (hk ▸ h2)]
  have h3 := decDigitsGo_length_pos k ((k + 1) / 10 / 10) (by omega)
  simp
  omega

theorem natFmt_length_of_ge_100 {n : Nat} (h : 100 ≤ n) (w : Nat) :
    2 < (natFmt w n).length := by
  have h3 := decStr_length_of_ge_100 h
  have : (natFmt w n).length = (w - (decStr n).length) + (decStr n).length := by
    simp [natFmt, padZeros]
  omega

/-- C3: on every nonnegative input, `_seconds_to_timestamp` renders the
floor-derived hours, minutes, seconds and milliseconds, zero-padded to
2/2/2/3 digits; at 100 hours or more the hour field has more than two
digits (no failure); and the two example values render as stated. -/
theorem claim_C3 (q : ℚ) (hq : 0 ≤ q) :
    _seconds_to_timestamp q =
      natFmt 2 ⌊q / 3600⌋.toNat ++ ":" ++
      natFmt 2 ⌊(q - 3600 * (⌊q / 3600⌋ : ℚ)) / 60⌋.toNat ++ ":" ++
      natFmt 2 ⌊q - 60 * (⌊q / 60⌋ : ℚ)⌋.toNat ++ "," ++
      natFmt 3 ⌊(q - (⌊q⌋ : ℚ)) * 1000⌋.toNat
    ∧ (360000 ≤ q → 2 < (natFmt 2 ⌊q / 3600⌋.toNat).length)
    ∧ _seconds_to_timestamp 0 = "00:00:00,000"
    ∧ _seconds_to_timestamp (7323 / 2) = "01:01:01,500" := by
  refine ⟨?_, ?_, ?_, ?_⟩
  · have h := seconds_to_timestamp_eval q hq
    rw [pyMod_eq, pyMod_eq] at h
    exact h
  · intro hbig
    have hfloor : (100 : Int) ≤ ⌊q / 3600⌋ := by
      rw [Int.le_floor]
      rw [le_div_iff₀ (by norm_num : (0:ℚ) < 3600)]
      push_cast
      linarith
    have : 100 ≤ ⌊q / 3600⌋.toNat := by omega
    exact natFmt_length_of_ge_100 this 2
  · rw [seconds_to_timestamp_eval 0 le_rfl]
    have h1 : ⌊(0 : ℚ) / 3600⌋ = 0 := by norm_num
    have h2 : pyMod (0 : ℚ) 3600 = 0 := by rw [pyMod_eq]; norm_num
    have h3 : pyMod (0 : ℚ) 60 = 0 := by rw [pyMod_eq]; norm_num
    rw [h1, h2, h3]
    norm_num
    decide
  · rw [seconds_to_timestamp_eval _ (by norm_num)]
    have h1 : ⌊(7323 / 2 : ℚ) / 3600⌋ = 1 := by norm_num [Int.floor_eq_iff]
    have h2 : pyMod (7323 / 2 : ℚ) 3600 = 123 / 2 := by rw [pyMod_eq, h1]; norm_num
    have h3 : ⌊(123 / 2 : ℚ) / 60⌋ = 1 := by norm_num [Int.floor_eq_iff]
    have h4 : pyMod (7323 / 2 : ℚ) 60 = 3 / 2 := by
      rw [pyMod_eq]
      norm_num [Int.floor_eq_iff]
    have h5 : ⌊(3 / 2 : ℚ)⌋ = 1 := by norm_num [Int.floor_eq_iff]
    have h6 : ⌊(7323 / 2 : ℚ)⌋ = 3661 := by norm_num [Int.floor_eq_iff]
    rw [h1, h2, h3, h4, h5, h6]
    norm_num
    decide

/-- C3 witness: the theorem applied at the concrete input `3661.5`. -/
theorem claim_C3_witness : _seconds_to_timestamp (7323 / 2) = "01:01:01,500" :=
  (claim_C3 (7323 / 2) (by norm_num)).2.2.2

/-! ### `str.strip` lemmas -/

theorem pyStripList_rdrop (l : List Char) :
    (pyStripList l).rdropWhile isPySpace = pyStripList l := by
  rw [pyStripList, List.rdropWhile_idempotent]

theorem pyStripList_append_newline (l : List Char) :
    pyStripList (pyStripList l ++ ['\n']) = pyStripList l := by
  by_cases hy0 : pyStripList l = []
  · rw [hy0]
    simp only [List.nil_append]
    rw [pyStripList]
    rw [show List.dropWhile isPySpace ['\n'] = [] from by decide]
    simp [List.rdropWhile]
  · obtain ⟨a, t, hat⟩ : ∃ a t, pyStripList l = a :: t := by
      cases hcase : pyStripList l with
      | nil => exact absurd hcase hy0
      | cons a t => exact ⟨a, t, rfl⟩
    obtain ⟨r, hr⟩ : pyStripList l <+: l.dropWhile isPySpace := List.rdropWhile_prefix _ _
    have ha : isPySpace a = false := by
      have h2 := List.head?_dropWhile_not isPySpace l
      rw [← hr, hat, List.cons_append, List.head?_cons] at h2
      exact h2
    conv_lhs => rw [pyStripList]
    have hdrop : List.dropWhile isPySpace (pyStripList l ++ ['\n']) = pyStripList l ++ ['\n'] := by
      rw [hat, List.cons_append, List.dropWhile_cons_of_neg (by simp [ha])]
    rw [hdrop, List.rdropWhile_concat_pos _ _ _ (by decide), pyStripList_rdrop]

theorem pyStrip_append_newline (s : String) : pyStrip (pyStrip s ++ "\n") = pyStrip s := by
  rw [pyStrip, pyStrip]
  rw [show (String.mk (pyStripList s.data) ++ "\n").data = pyStripList s.data ++ ['\n'] from rfl]
  rw [pyStripList_append_newline]

/-- C9: `format_markdown` and `format_plain_text` agree on every input,
both return the input stripped of leading/trailing whitespace with one
trailing newline, and each is idempotent. -/
theorem claim_C9 :
    (∀ s, format_markdown s = format_plain_text s)
    ∧ (∀ s, format_plain_text s = pyStrip s ++ "\n")
    ∧ (∀ s, format_markdown (format_markdown s) = format_markdown s)
    ∧ (∀ s, format_plain_text (format_plain_text s) = format_plain_text s) := by
  refine ⟨fun s => rfl, fun s => rfl, fun s => ?_, fun s => ?_⟩
  · simp only [format_markdown]
    rw [pyStrip_append_newline]
  · simp only [format_plain_text]
    rw [pyStrip_append_newline]

/-! ### `format_srt` block structure -/

theorem srtBlock_eq_body (i : Nat) (s : SrtSegment) : srtBlock i s = srtBody i s ++ "\n" := by
  apply String.ext
  simp [srtBlock, srtBody]

theorem pyJoin_blocks (bodies : List String) (h : bodies ≠ []) :
    pyJoin "\n" (bodies.map fun b => b ++ "\n") = pyJoin "\n\n" bodies ++ "\n" := by
  induction bodies with
  | nil => exact absurd rfl h
  | cons b rest ih =>
    cases rest with
    | nil => rfl
    | cons c rest' =>
      have ih' := ih (by simp)
      simp only [List.map_cons] at ih' ⊢
      rw [pyJoin, pyJoin]
      rw [ih']
      apply String.ext
      simp [show ("\n\n" : String).data = ['\n', '\n'] from rfl,
            show ("\n" : String).data = ['\n'] from rfl]

/-- C4: `format_srt` of the empty list is the empty string; of `n`
segments it is the 1-indexed bodies (index line, timestamp line, trimmed
text) joined by exactly one blank line, with a single trailing newline
and no extra trailing blank line. -/
theorem claim_C4 (segments : List SrtSegment) :
    format_srt segments =
      if segments = [] then ""
      else pyJoin "\n\n" (segments.enum.map fun p => srtBody (p.1 + 1) p.2) ++ "\n" := by
  cases segments with
  | nil => rfl
  | cons a rest =>
    rw [if_neg (by simp)]
    rw [format_srt]
    have hfun : (fun p : Nat × SrtSegment => srtBlock (p.1 + 1) p.2)
        = fun p => srtBody (p.1 + 1) p.2 ++ "\n" := funext fun p => srtBlock_eq_body _ _
    rw [hfun]
    rw [show (fun p : Nat × SrtSegment => srtBody (p.1 + 1) p.2 ++ "\n")
        = (fun b => b ++ "\n") ∘ (fun p : Nat × SrtSegment => srtBody (p.1 + 1) p.2) from rfl]
    rw [← List.map_map]
    exact pyJoin_blocks _ (by simp [List.enum_cons])

/-! ### Concrete timestamp evaluations -/

theorem ts_eval_zero : _seconds_to_timestamp 0 = "00:00:00,000" := by
  rw [seconds_to_timestamp_eval 0 le_rfl]
  have h1 : ⌊(0 : ℚ) / 3600⌋ = 0 := by norm_num
  have h2 : pyMod (0 : ℚ) 3600 = 0 := by rw [pyMod_eq]; norm_num
  have h3 : pyMod (0 : ℚ) 60 = 0 := by rw [pyMod_eq]; norm_num
  rw [h1, h2, h3]
  norm_num
  decide

theorem ts_eval_one : _seconds_to_timestamp 1 = "00:00:01,000" := by
  rw [seconds_to_timestamp_eval 1 (by norm_num)]
  have h1 : ⌊(1 : ℚ) / 3600⌋ = 0 := by
    rw [Int.floor_eq_iff] <;> norm_num
  have h2 : pyMod (1 : ℚ) 3600 = 1 := by rw [pyMod_eq, h1]; norm_num
  have h3 : ⌊(1 : ℚ) / 60⌋ = 0 := by
    rw [Int.floor_eq_iff] <;> norm_num
  have h4 : pyMod (1 : ℚ) 60 = 1 := by rw [pyMod_eq, h3]; norm_num
  have h5 : ⌊(1 : ℚ)⌋ = 1 := Int.floor_one
  rw [h1, h2, h4, h5]
  norm_num
  decide

theorem enumFrom_map_pair {α β : Type} (f : α → β) :
    ∀ (n : Nat) (l : List α),
      (l.map f).enumFrom n = (l.enumFrom n).map fun p => (p.1, f p.2)
  | _, [] => rfl
  | n, a :: t => by
      simp only [List.map_cons, List.enumFrom_cons]
      rw [enumFrom_map_pair f (n + 1) t]

/-- C10: `format_srt` treats a missing `start`/`end` key as `0` (rendered
`00:00:00,000`) and a missing `text` key as the empty text, raising no
error: filling the defaults in first gives the same output, and the
all-missing segment renders as the stated block. -/
theorem claim_C10 :
    (∀ segments : List SrtSegment,
        format_srt segments = format_srt (segments.map fun s =>
          ⟨some (s.start.getD 0), some (s.«end».getD 0), some (s.text.getD "")⟩))
    ∧ format_srt [⟨none, none, none⟩] = "1\n00:00:00,000 --> 00:00:00,000\n\n" := by
  constructor
  · intro segments
    rw [format_srt, format_srt]
    simp only [List.enum]
    rw [enumFrom_map_pair (fun s : SrtSegment =>
          (⟨some (s.start.getD 0), some (s.«end».getD 0), some (s.text.getD "")⟩ : SrtSegment)) 0,
        List.map_map]
    rfl
  · have hb : format_srt [(⟨none, none, none⟩ : SrtSegment)] = srtBlock 1 ⟨none, none, none⟩ := rfl
    rw [hb, srtBlock]
    simp only [Option.getD_none]
    rw [ts_eval_zero]
    apply String.ext
    decide

/-- C6 counterexample: a segment with `end < start` (end `0`, start `1`)
is rendered in full — `format_srt` returns a complete block and raises
no InvalidInput error. -/
theorem claim_C6_counterexample :
    format_srt [⟨some 1, some 0, some "x"⟩] = "1\n00:00:01,000 --> 00:00:00,000\nx\n" := by
  have hb : format_srt [(⟨some 1, some 0, some "x"⟩ : SrtSegment)]
      = srtBlock 1 ⟨some 1, some 0, some "x"⟩ := rfl
  rw [hb, srtBlock]
  simp only [Option.getD_some]
  rw [ts_eval_zero, ts_eval_one]
  apply String.ext
  decide

/-- C6 amended: `format_srt` performs no start/end validity check — for
any segment with `end_seconds < start_seconds` it still returns the
complete rendering with the timestamps as given, never an error. -/
theorem claim_C6 (s e : ℚ) (t : String) (h : e < s) :
    format_srt [⟨some s, some e, some t⟩] =
      "1\n" ++ _seconds_to_timestamp s ++ " --> " ++ _seconds_to_timestamp e ++ "\n" ++
        pyStrip t ++ "\n" := by
  have hb : format_srt [(⟨some s, some e, some t⟩ : SrtSegment)]
      = srtBlock 1 ⟨some s, some e, some t⟩ := rfl
  rw [hb, srtBlock]
  simp only [Option.getD_some]
  apply String.ext
  simp [show decStr 1 = "1" from rfl, show ("1\n" : String).data = ['1', '\n'] from rfl,
        show ("\n" : String).data = ['\n'] from rfl]

/-- C6 witness: the amended theorem applied at the concrete invalid
segment `start = 1`, `end = 0`. -/
theorem claim_C6_witness :
    format_srt [⟨some 1, some 0, some "x"⟩] =
      "1\n" ++ _seconds_to_timestamp 1 ++ " --> " ++ _seconds_to_timestamp 0 ++ "\n" ++
        pyStrip "x" ++ "\n" :=
  claim_C6 1 0 "x" (by norm_num)

/-- C7 counterexample: on a negative input `_seconds_to_timestamp` does
not fail; it returns the negative-looking timestamp string. -/
theorem claim_C7_counterexample : _seconds_to_timestamp (-1) = "-1:59:59,000" := by
  have hd : pyFloorDiv (-1 : ℚ) 3600 = (-1 : ℚ) := by
    rw [pyFloorDiv_eq]
    rw [show ⌊(-1 : ℚ) / 3600⌋ = -1 from by rw [Int.floor_eq_iff] <;> norm_num]
    norm_num
  have hm3600 : pyMod (-1 : ℚ) 3600 = 3599 := by
    rw [pyMod_eq, show ⌊(-1 : ℚ) / 3600⌋ = -1 from by rw [Int.floor_eq_iff] <;> norm_num]
    norm_num
  have hm60 : pyMod (-1 : ℚ) 60 = 59 := by
    rw [pyMod_eq, show ⌊(-1 : ℚ) / 60⌋ = -1 from by rw [Int.floor_eq_iff] <;> norm_num]
    norm_num
  have hd59 : pyFloorDiv (3599 : ℚ) 60 = 59 := by
    rw [pyFloorDiv_eq, show ⌊(3599 : ℚ) / 60⌋ = 59 from by rw [Int.floor_eq_iff] <;> norm_num]
    norm_num
  have hneg1 : pyInt (-1 : ℚ) = -1 := by
    rw [show (-1 : ℚ) = ((-1 : Int) : ℚ) by norm_num, pyInt_intCast]
  have hmil : pyInt (((-1 : ℚ) - ((pyInt (-1 : ℚ)) : ℚ)) * 1000) = 0 := by
    rw [hneg1, show ((-1 : ℚ) - (((-1 : Int)) : ℚ)) * 1000 = (((0 : Int) : ℚ)) by push_cast; ring,
        pyInt_intCast]
  rw [_seconds_to_timestamp, hd, hm3600, hm60, hd59, hmil, hneg1]
  rw [show pyInt ((59 : ℚ)) = 59 from by
    rw [show (59 : ℚ) = ((59 : Int) : ℚ) by norm_num, pyInt_intCast]]
  decide

/-- C7 amended: for every negative input, `_seconds_to_timestamp` does
not raise; it returns a timestamp string beginning with a minus sign
(a negative-looking timestamp). -/
theorem claim_C7 (q : ℚ) (h : q < 0) :
    ∃ s : String, _seconds_to_timestamp q = "-" ++ s := by
  have hfloor : ⌊q / 3600⌋ < 0 := by
    by_contra hc
    push_neg at hc
    have : (0 : ℚ) ≤ q / 3600 := Int.floor_nonneg.mp hc
    have : (0 : ℚ) ≤ q := by
      by_contra hq
      push_neg at hq
      have : q / 3600 < 0 := div_neg_of_neg_of_pos hq (by norm_num)
      linarith
    linarith
  have hhours : pyInt (pyFloorDiv q 3600) = ⌊q / 3600⌋ := by
    rw [pyFloorDiv_eq, pyInt_intCast]
  have hfmt : intFmt 2 (pyInt (pyFloorDiv q 3600))
      = "-" ++ padZeros 1 (decStr (pyInt (pyFloorDiv q 3600)).natAbs) := by
    rw [intFmt, if_pos (by rw [hhours]; exact hfloor)]
  refine ⟨padZeros 1 (decStr (pyInt (pyFloorDiv q 3600)).natAbs) ++ ":" ++
    intFmt 2 (pyInt (pyFloorDiv (pyMod q 3600) 60)) ++ ":" ++
    intFmt 2 (pyInt (pyMod q 60)) ++ "," ++
    intFmt 3 (pyInt ((q - (pyInt q : ℚ)) * 1000)), ?_⟩
  rw [_seconds_to_timestamp, hfmt]
  apply String.ext
  simp [show ("-" : String).data = ['-'] from rfl]

/-- C7 witness: the amended theorem applied at the concrete input `-1`. -/
theorem claim_C7_witness : ∃ s : String, _seconds_to_timestamp (-1) = "-" ++ s :=
  claim_C7 (-1) (by norm_num)

/-! ### Properties of `speakerRuns` -/

theorem pyOrQ_some_zero (x : ℚ) : pyOrQ (some x) 0 = x := by
  by_cases h : x = 0 <;> simp [pyOrQ, h]

theorem speakerRuns_cons_shape :
    ∀ (ws : List WordInfo) (w : WordInfo), ∃ t rs, speakerRuns (w :: ws) = (w :: t) :: rs
  | [], w => ⟨[], [], rfl⟩
  | w' :: ws', w => by
      obtain ⟨t', rs', h⟩ := speakerRuns_cons_shape ws' w'
      by_cases hsp : w.speaker_tag = w'.speaker_tag
      · refine ⟨w' :: t', rs', ?_⟩
        rw [speakerRuns, if_pos hsp, h]
      · exact ⟨[], speakerRuns (w' :: ws'), by rw [speakerRuns, if_neg hsp]⟩

theorem speakerRuns_uniform :
    ∀ (pre : List WordInfo) (spk : Int), pre ≠ [] →
      (∀ w ∈ pre, w.speaker_tag = spk) → speakerRuns pre = [pre]
  | [], _, h, _ => absurd rfl h
  | [_], _, _, _ => rfl
  | a :: b :: t, spk, _, hspk => by
      have hb := speakerRuns_uniform (b :: t) spk (by simp)
        (fun w hw => hspk w (List.mem_cons_of_mem a hw))
      rw [speakerRuns, if_pos (by rw [hspk a (by simp), hspk b (by simp)]), hb]

theorem speakerRuns_append_break :
    ∀ (pre : List WordInfo) (spk : Int) (w : WordInfo) (rest : List WordInfo), pre ≠ [] →
      (∀ x ∈ pre, x.speaker_tag = spk) → w.speaker_tag ≠ spk →
      speakerRuns (pre ++ w :: rest) = pre :: speakerRuns (w :: rest)
  | [], _, _, _, h, _, _ => absurd rfl h
  | [a], spk, w, rest, _, hspk, hw => by
      have ha : a.speaker_tag = spk := hspk a (by simp)
      rw [List.singleton_append, speakerRuns, if_neg (by rw [ha]; exact fun hc => hw hc.symm)]
  | a :: b :: t, spk, w, rest, _, hspk, hw => by
      have hrec := speakerRuns_append_break (b :: t) spk w rest (by simp)
        (fun x hx => hspk x (List.mem_cons_of_mem a hx)) hw
      rw [show (a :: b :: t) ++ w :: rest = a :: b :: (t ++ w :: rest) by simp]
      rw [speakerRuns, if_pos (by rw [hspk a (by simp), hspk b (by simp)])]
      rw [show b :: (t ++ w :: rest) = (b :: t) ++ w :: rest by simp, hrec]

theorem speakerRuns_flatten :
    ∀ (l : List WordInfo), (speakerRuns l).flatten = l
  | [] => rfl
  | [w] => rfl
  | w :: w' :: ws => by
      have ih := speakerRuns_flatten (w' :: ws)
      obtain ⟨t, rs, h⟩ := speakerRuns_cons_shape ws w'
      by_cases hsp : w.speaker_tag = w'.speaker_tag
      · rw [speakerRuns, if_pos hsp, h]
        rw [h] at ih
        simp only [List.flatten_cons] at ih ⊢
        rw [show w :: w' :: t ++ rs.flatten = w :: (w' :: t ++ rs.flatten) by simp, ih]
      · rw [speakerRuns, if_neg hsp]
        simp only [List.flatten_cons, List.singleton_append, ih]

theorem speakerRuns_ne_nil :
    ∀ (l : List WordInfo), ∀ r ∈ speakerRuns l, r ≠ []
  | [] => by simp [speakerRuns]
  | [w] => by simp [speakerRuns]
  | w :: w' :: ws => by
      intro r hr
      have ih := speakerRuns_ne_nil (w' :: ws)
      obtain ⟨t, rs, h⟩ := speakerRuns_cons_shape ws w'
      by_cases hsp : w.speaker_tag = w'.speaker_tag
      · rw [speakerRuns, if_pos hsp, h] at hr
        rcases List.mem_cons.mp hr with h1 | h2
        · simp [h1]
        · exact ih r (by rw [h]; exact List.mem_cons_of_mem _ h2)
      · rw [speakerRuns, if_neg hsp] at hr
        rcases List.mem_cons.mp hr with h1 | h2
        · simp [h1]
        · exact ih r h2

theorem speakerRuns_chain :
    ∀ (l : List WordInfo), ∀ r ∈ speakerRuns l,
      r.Chain' (fun a b => a.speaker_tag = b.speaker_tag)
  | [] => by simp [speakerRuns]
  | [w] => by simp [speakerRuns]
  | w :: w' :: ws => by
      intro r hr
      have ih := speakerRuns_chain (w' :: ws)
      obtain ⟨t, rs, h⟩ := speakerRuns_cons_shape ws w'
      by_cases hsp : w.speaker_tag = w'.speaker_tag
      · rw [speakerRuns, if_pos hsp, h] at hr
        rcases List.mem_cons.mp hr with h1 | h2
        · subst h1
          rw [List.chain'_cons]
          exact ⟨hsp, ih (w' :: t) (by rw [h]; exact List.mem_cons_self _ _)⟩
        · exact ih r (by rw [h]; exact List.mem_cons_of_mem _ h2)
      · rw [speakerRuns, if_neg hsp] at hr
        rcases List.mem_cons.mp hr with h1 | h2
        · subst h1; simp
        · exact ih r h2

theorem speakerRuns_boundary :
    ∀ (l : List WordInfo),
      (speakerRuns l).Chain' (fun r s =>
        ∀ a ∈ r.getLast?, ∀ b ∈ s.head?, a.speaker_tag ≠ b.speaker_tag)
  | [] => by simp [speakerRuns]
  | [w] => by simp [speakerRuns]
  | w :: w' :: ws => by
      have ih := speakerRuns_boundary (w' :: ws)
      obtain ⟨t, rs, h⟩ := speakerRuns_cons_shape ws w'
      by_cases hsp : w.speaker_tag = w'.speaker_tag
      · rw [speakerRuns, if_pos hsp, h]
        rw [h] at ih
        rw [List.chain'_cons'] at ih ⊢
        refine ⟨?_, ih.2⟩
        intro y hy a ha b hb
        rw [List.getLast?_cons_cons] at ha
        exact ih.1 y hy a ha b hb
      · rw [speakerRuns, if_neg hsp]
        rw [List.chain'_cons']
        refine ⟨?_, ih⟩
        intro y hy a ha b hb
        rw [h] at hy
        rw [List.head?_cons, Option.mem_def, Option.some.injEq] at hy
        subst hy
        simp only [List.getLast?_singleton, Option.mem_def, Option.some.injEq] at ha
        subst ha
        rw [List.head?_cons, Option.mem_def, Option.some.injEq] at hb
        subst hb
        exact fun hc => hsp hc

/-! ### The loop of `_group_words_into_segments` builds exactly the runs -/

theorem flushSeg_open (segs : List Segment) (a : WordInfo) (t : List WordInfo) (spk : Int)
    (hspk : ∀ w ∈ a :: t, w.speaker_tag = spk) :
    flushSeg ⟨segs, some spk, (a :: t).map WordInfo.word,
      some (ts_to_sec a.start_time), some (ts_to_sec (((a :: t).getLast (by simp)).end_time))⟩
      = mkSeg (a :: t) := by
  have ha : a.speaker_tag = spk := hspk a (by simp)
  rw [flushSeg, mkSeg]
  simp only [optIntRepr, pyOrQ_some_zero, ← ha]
  rfl

theorem foldl_open :
    ∀ (rest : List WordInfo) (segs : List Segment) (a : WordInfo) (t : List WordInfo) (spk : Int),
      (∀ w ∈ a :: t, w.speaker_tag = spk) →
      finishG (rest.foldl gStep ⟨segs, some spk, (a :: t).map WordInfo.word,
        some (ts_to_sec a.start_time), some (ts_to_sec (((a :: t).getLast (by simp)).end_time))⟩)
        = segs ++ (speakerRuns ((a :: t) ++ rest)).map mkSeg
  | [], segs, a, t, spk, hspk => by
      rw [List.foldl_nil, List.append_nil]
      rw [speakerRuns_uniform (a :: t) spk (by simp) hspk]
      rw [finishG, if_pos (by simp)]
      rw [flushSeg_open segs a t spk hspk]
      simp
  | w :: rest', segs, a, t, spk, hspk => by
      rw [List.foldl_cons]
      by_cases hw : w.speaker_tag = spk
      · have hlast : ((a :: (t ++ [w])).getLast (by simp)) = w := by
          have h := List.getLast_concat (a := w) (l := a :: t)
          simpa using h
        have hstep : gStep ⟨segs, some spk, (a :: t).map WordInfo.word,
            some (ts_to_sec a.start_time),
            some (ts_to_sec (((a :: t).getLast (by simp)).end_time))⟩ w
            = ⟨segs, some spk, (a :: (t ++ [w])).map WordInfo.word,
               some (ts_to_sec a.start_time),
               some (ts_to_sec (((a :: (t ++ [w])).getLast (by simp)).end_time))⟩ := by
          rw [gStep]
          simp only [if_pos hw, hlast]
          simp
        rw [hstep]
        rw [foldl_open rest' segs a (t ++ [w]) spk (by
          intro x hx
          rcases List.mem_cons.mp hx with h1 | h2
          · exact hspk x (by simp [h1])
          · rcases List.mem_append.mp h2 with h3 | h4
            · exact hspk x (List.mem_cons_of_mem a h3)
            · rw [List.mem_singleton.mp h4]
              exact hw)]
        congr 2
        simp
      · have hstep : gStep ⟨segs, some spk, (a :: t).map WordInfo.word,
            some (ts_to_sec a.start_time),
            some (ts_to_sec (((a :: t).getLast (by simp)).end_time))⟩ w
            = ⟨segs ++ [flushSeg ⟨segs, some spk, (a :: t).map WordInfo.word,
                 some (ts_to_sec a.start_time),
                 some (ts_to_sec (((a :: t).getLast (by simp)).end_time))⟩],
               some w.speaker_tag, [w].map WordInfo.word,
               some (ts_to_sec w.start_time),
               some (ts_to_sec ((([w] : List WordInfo).getLast (by simp)).end_time))⟩ := by
          rw [gStep]
          simp only [if_neg hw]
          simp
        rw [hstep]
        rw [foldl_open rest' _ w [] w.speaker_tag (by simp)]
        rw [flushSeg_open segs a t spk hspk]
        rw [show ([w] : List WordInfo) ++ rest' = w :: rest' by simp]
        rw [speakerRuns_append_break (a :: t) spk w rest' (by simp) hspk hw]
        simp

/-- The segment builder equals `mkSeg` mapped over the maximal
same-speaker runs of its input. -/
theorem group_eq_runs (words : List WordInfo) :
    _group_words_into_segments words = (speakerRuns words).map mkSeg := by
  cases words with
  | nil => rfl
  | cons w ws =>
    rw [_group_words_into_segments, if_neg (by simp), List.foldl_cons]
    have hinit : gStep ⟨[], none, [], none, none⟩ w
        = ⟨[], some w.speaker_tag, [w].map WordInfo.word,
           some (ts_to_sec w.start_time),
           some (ts_to_sec ((([w] : List WordInfo).getLast (by simp)).end_time))⟩ := rfl
    rw [hinit, foldl_open ws [] w [] w.speaker_tag (by simp)]
    simp

/-! ### Claims about the segment builder -/

theorem ts_fill_start (w : WordInfo) :
    ts_to_sec (fillMissingTimes w).start_time = ts_to_sec w.start_time := by
  cases h : w.start_time with
  | none => norm_num [fillMissingTimes, h, ts_to_sec]
  | some d => simp [fillMissingTimes, h]

theorem ts_fill_end (w : WordInfo) :
    ts_to_sec (fillMissingTimes w).end_time = ts_to_sec w.end_time := by
  cases h : w.end_time with
  | none => norm_num [fillMissingTimes, h, ts_to_sec]
  | some d => simp [fillMissingTimes, h]

theorem gStep_fill (st : GState) (w : WordInfo) :
    gStep st (fillMissingTimes w) = gStep st w := by
  rw [gStep, gStep, ts_fill_start, ts_fill_end]
  rfl

/-- C8: the builder treats a missing `start_time`/`end_time` as `0.0`
seconds — its output on any word list is identical to its output when the
missing timestamps are replaced by the zero duration first. -/
theorem claim_C8 (words : List WordInfo) :
    _group_words_into_segments (words.map fillMissingTimes) =
      _group_words_into_segments words := by
  rw [_group_words_into_segments, _group_words_into_segments]
  by_cases h : words = []
  · rw [if_pos (by simp [h]), if_pos h]
  · rw [if_neg (by simp [h]), if_neg h]
    rw [List.foldl_map]
    rw [show (fun x y => gStep x (fillMissingTimes y)) = gStep from
      funext fun st => funext fun w => gStep_fill st w]

/-- C1: the builder maps `mkSeg` over the maximal same-speaker runs of
its input; the runs flatten back to the input in order (no word dropped,
duplicated or reordered); every run is nonempty with one speaker
throughout (adjacent equal-speaker words stay together); adjacent runs
change speaker (a boundary exactly at each speaker change); and each
segment's text is the space-joined, stripped texts of its run's words. -/
theorem claim_C1 (words : List WordInfo) :
    _group_words_into_segments words = (speakerRuns words).map mkSeg
    ∧ (speakerRuns words).flatten = words
    ∧ (∀ r ∈ speakerRuns words, r ≠ [] ∧
        r.Chain' (fun a b => a.speaker_tag = b.speaker_tag))
    ∧ (speakerRuns words).Chain' (fun r s =>
        ∀ a ∈ r.getLast?, ∀ b ∈ s.head?, a.speaker_tag ≠ b.speaker_tag)
    ∧ (∀ r ∈ speakerRuns words,
        (mkSeg r).text = pyStrip (pyJoin " " (r.map WordInfo.word))) := by
  refine ⟨group_eq_runs words, speakerRuns_flatten words,
    fun r hr => ⟨speakerRuns_ne_nil words r hr, speakerRuns_chain words r hr⟩,
    speakerRuns_boundary words, fun r hr => ?_⟩
  cases r with
  | nil => exact absurd rfl (speakerRuns_ne_nil words [] hr)
  | cons a t => rfl

/-- C1 witness: the characterization and word preservation at the spec's
three-word example. -/
theorem claim_C1_witness :
    _group_words_into_segments [exHi, exThere, exBye]
        = (speakerRuns [exHi, exThere, exBye]).map mkSeg
    ∧ (speakerRuns [exHi, exThere, exBye]).flatten = [exHi, exThere, exBye] :=
  ⟨(claim_C1 [exHi, exThere, exBye]).1, (claim_C1 [exHi, exThere, exBye]).2.1⟩

/-- C2: the builder returns `[]` on empty input, and on the spec's
three-word example returns exactly the two segments
`(speaker 0, 0.0–1.0, "Hi there")` and `(speaker 1, 1.0–1.5, "Bye")`. -/
theorem claim_C2 :
    _group_words_into_segments [] = []
    ∧ _group_words_into_segments [exHi, exThere, exBye] =
        [⟨"SPEAKER_0", 0, 1, "Hi there"⟩, ⟨"SPEAKER_1", 1, 3 / 2, "Bye"⟩] := by
  refine ⟨rfl, ?_⟩
  rw [group_eq_runs]
  rw [show speakerRuns [exHi, exThere, exBye] = [[exHi, exThere], [exBye]] from by decide]
  rw [List.map_cons, List.map_cons, List.map_nil]
  have h1 : mkSeg [exHi, exThere] = ⟨"SPEAKER_0", 0, 1, "Hi there"⟩ := by
    simp only [mkSeg, Segment.mk.injEq]
    refine ⟨by decide, by norm_num [exHi, ts_to_sec], ?_, by decide⟩
    rw [show ([exHi, exThere].getLast (by simp)) = exThere from rfl]
    rw [show ts_to_sec exThere.end_time = 1 from by norm_num [exThere, ts_to_sec]]
    norm_num
  have h2 : mkSeg [exBye] = ⟨"SPEAKER_1", 1, 3 / 2, "Bye"⟩ := by
    simp only [mkSeg, Segment.mk.injEq]
    refine ⟨by decide, by norm_num [exBye, ts_to_sec], ?_, by decide⟩
    rw [show (([exBye] : List WordInfo).getLast (by simp)) = exBye from rfl]
    rw [show ts_to_sec exBye.end_time = 3 / 2 from by norm_num [exBye, ts_to_sec]]
    norm_num [exBye, ts_to_sec]
  rw [h1, h2]

theorem run_start_le_end :
    ∀ (a : WordInfo) (t : List WordInfo),
      (a :: t).Chain' (fun x y => ts_to_sec x.end_time ≤ ts_to_sec y.start_time) →
      (∀ w ∈ a :: t, ts_to_sec w.start_time ≤ ts_to_sec w.end_time) →
      ts_to_sec a.start_time ≤ ts_to_sec (((a :: t).getLast (by simp)).end_time)
  | a, [], _, hse => by simpa using hse a (by simp)
  | a, b :: t', hch, hse => by
      have h1 : ts_to_sec a.start_time ≤ ts_to_sec a.end_time := hse a (by simp)
      have hcc := List.chain'_cons.mp hch
      have h3 := run_start_le_end b t' hcc.2
        (fun w hw => hse w (List.mem_cons_of_mem a hw))
      rw [List.getLast_cons (show b :: t' ≠ [] by simp)]
      exact le_trans h1 (le_trans hcc.1 h3)

theorem mkSeg_start (a : WordInfo) (t : List WordInfo) :
    (mkSeg (a :: t)).start = ts_to_sec a.start_time := rfl

theorem mkSeg_start_le_end (r : List WordInfo) (hne : r ≠ [])
    (hch : r.Chain' (fun x y => ts_to_sec x.end_time ≤ ts_to_sec y.start_time))
    (hse : ∀ w ∈ r, ts_to_sec w.start_time ≤ ts_to_sec w.end_time) :
    (mkSeg r).start ≤ (mkSeg r).«end» := by
  cases r with
  | nil => exact absurd rfl hne
  | cons a t =>
    rw [mkSeg]
    simp only
    by_cases he : ts_to_sec (((a :: t).getLast (by simp)).end_time) = 0
    · rw [if_pos he]
    · rw [if_neg he]
      exact run_start_le_end a t hch hse

theorem chain_imp_mem {α : Type} {R S : α → α → Prop} :
    ∀ (l : List α), (∀ a ∈ l, ∀ b ∈ l, R a b → S a b) → l.Chain' R → l.Chain' S
  | [], _, _ => List.chain'_nil
  | [a], _, _ => List.chain'_singleton a
  | a :: b :: t, himp, hch => by
      rw [List.chain'_cons] at hch ⊢
      exact ⟨himp a (by simp) b (by simp) hch.1,
        chain_imp_mem (b :: t)
          (fun x hx y hy hr =>
            himp x (List.mem_cons_of_mem a hx) y (List.mem_cons_of_mem a hy) hr)
          hch.2⟩

/-- C5: if every word has `0 ≤ start ≤ end` and the words are
chronological (each word ends no later than the next starts), then every
emitted segment satisfies `start ≤ end`, and the segments appear in input
order (their start times are monotone along the output list). -/
theorem claim_C5 (words : List WordInfo)
    (hnn : ∀ w ∈ words, 0 ≤ ts_to_sec w.start_time)
    (hse : ∀ w ∈ words, ts_to_sec w.start_time ≤ ts_to_sec w.end_time)
    (hch : words.Chain' (fun a b => ts_to_sec a.end_time ≤ ts_to_sec b.start_time)) :
    (∀ seg ∈ _group_words_into_segments words, seg.start ≤ seg.«end»)
    ∧ (_group_words_into_segments words).Chain' (fun s1 s2 => s1.start ≤ s2.start) := by
  have hnil : ([] : List WordInfo) ∉ speakerRuns words :=
    fun hmem => speakerRuns_ne_nil words [] hmem rfl
  have hch' : (speakerRuns words).flatten.Chain'
      (fun a b => ts_to_sec a.end_time ≤ ts_to_sec b.start_time) := by
    rw [speakerRuns_flatten]
    exact hch
  obtain ⟨hper, hbound⟩ := (List.chain'_flatten hnil).mp hch'
  have hse' : ∀ r ∈ speakerRuns words, ∀ w ∈ r,
      ts_to_sec w.start_time ≤ ts_to_sec w.end_time := by
    intro r hr w hw
    refine hse w ?_
    rw [← speakerRuns_flatten words]
    exact List.mem_flatten.mpr ⟨r, hr, hw⟩
  constructor
  · intro seg hseg
    rw [group_eq_runs] at hseg
    obtain ⟨r, hr, rfl⟩ := List.mem_map.mp hseg
    exact mkSeg_start_le_end r (speakerRuns_ne_nil words r hr) (hper r hr) (hse' r hr)
  · rw [group_eq_runs, List.chain'_map]
    refine chain_imp_mem (speakerRuns words) ?_ hbound
    intro r hr s hs hrel
    cases r with
    | nil => exact absurd hr hnil
    | cons a t =>
      cases s with
      | nil => exact absurd hs hnil
      | cons b u =>
        rw [mkSeg_start, mkSeg_start]
        have hlmem : ((a :: t).getLast (by simp)) ∈ (a :: t).getLast? := by
          rw [Option.mem_def, List.getLast?_eq_getLast (a :: t) (by simp)]
        have hhmem : b ∈ (b :: u).head? := by simp
        have hb := hrel _ hlmem _ hhmem
        exact le_trans (run_start_le_end a t (hper _ hr) (hse' _ hr)) hb

/-- C5 witness: the theorem applied at the spec's three-word example. -/
theorem claim_C5_witness :
    (_group_words_into_segments [exHi, exThere, exBye]).Chain'
      (fun s1 s2 => s1.start ≤ s2.start) := by
  refine (claim_C5 [exHi, exThere, exBye] ?_ ?_ ?_).2
  · intro w hw
    simp only [List.mem_cons, List.not_mem_nil, or_false] at hw
    rcases hw with rfl | rfl | rfl <;> norm_num [exHi, exThere, exBye, ts_to_sec]
  · intro w hw
    simp only [List.mem_cons, List.not_mem_nil, or_false] at hw
    rcases hw with rfl | rfl | rfl <;> norm_num [exHi, exThere, exBye, ts_to_sec]
  · refine List.chain'_cons.mpr ⟨?_, List.chain'_cons.mpr ⟨?_, List.chain'_singleton _⟩⟩
    · norm_num [exHi, exThere, ts_to_sec]
    · norm_num [exThere, exBye, ts_to_sec]

/-- C4 witness: the theorem applied at the empty segment list. -/
theorem claim_C4_witness :
    format_srt ([] : List SrtSegment) =
      if ([] : List SrtSegment) = [] then ""
      else pyJoin "\n\n"
        (([] : List SrtSegment).enum.map fun p => srtBody (p.1 + 1) p.2) ++ "\n" :=
  claim_C4 []

/-- C8 witness: the theorem applied at a one-word list with both
timestamps missing. -/
theorem claim_C8_witness :
    _group_words_into_segments
        (([⟨"a", 0, none, none⟩] : List WordInfo).map fillMissingTimes) =
      _group_words_into_segments ([⟨"a", 0, none, none⟩] : List WordInfo) :=
  claim_C8 [⟨"a", 0, none, none⟩]
